import Mathlib

/-!
Shallow embedding of `rapool` (src/src/lib.rs), a generic async object pool.

Modelling choices:
- `objects : Vec<T>` becomes `List T`, kept in the same order as the Rust
  vector: `Vec::push` appends at the end, `Vec::pop` removes the last element.
- `pending : VecDeque<Waker>` becomes `List Nat`, with wakers modelled as
  opaque `Nat` tokens; `push_back` appends at the end, `pop_front` removes
  the head.
- `Mutex::try_lock` success or failure is an explicit `locked : Bool` input
  to each operation that performs a non-blocking lock attempt.
- The deferred work spawned by `PoolGuard::drop` (which acquires the lock by
  blocking, so it always succeeds) is modelled as the state transformation
  `PoolGuard.dropWork`; the waker it invokes (if any) is returned.
-/

/-- The lock-protected pool state (`struct PoolInner`). -/
structure PoolInner (T : Type) where
  objects : List T
  pending : List Nat
deriving Repr, DecidableEq

/-- A guard wrapping one borrowed instance (`struct PoolGuard`); the
reference to the owning pool is implicit in the state-passing style. -/
structure PoolGuard (T : Type) where
  content : T
deriving Repr, DecidableEq

/-- `std::task::Poll`. -/
inductive PollRes (T : Type) where
  | Ready : T → PollRes T
  | Pending : PollRes T
deriving Repr, DecidableEq

/-- `<PoolFuture as Future>::poll`: try-lock, then either register the
caller's waker (objects empty), pop the top of the stack into a fresh
guard (objects non-empty), or report pending (lock contended). -/
def PoolFuture.poll {T : Type} (locked : Bool) (waker : Nat)
    (st : PoolInner T) : PollRes (PoolGuard T) × PoolInner T :=
  if locked then
    if st.objects.isEmpty then
      (PollRes.Pending, { st with pending := st.pending ++ [waker] })
    else
      match st.objects.getLast? with
      | some x => (PollRes.Ready ⟨x⟩, { st with objects := st.objects.dropLast })
      | none => (PollRes.Pending, st)  -- unreachable: objects is non-empty
  else
    (PollRes.Pending, st)

/-- The body of the task spawned by `PoolGuard::drop`: push the guard's
content back and wake the oldest pending waker, if any.  Returns the new
state and the waker invoked. -/
def PoolGuard.dropWork {T : Type} (content : T) (st : PoolInner T) :
    PoolInner T × Option Nat :=
  ({ objects := st.objects ++ [content], pending := st.pending.tail },
   st.pending.head?)

/-- `(0..size).map(|_| constructor()).collect()`: the `FnMut` closure is a
state-threaded function `c : σ → T × σ`, invoked sequentially. -/
def mkObjects {T σ : Type} (c : σ → T × σ) : Nat → σ → List T × σ
  | 0, s => ([], s)
  | n + 1, s =>
    let xs := c s
    let rest := mkObjects c n xs.2
    (xs.1 :: rest.1, rest.2)

/-- `Pool::new(size, constructor)`: seed `objects` with `size` constructor
results, `pending` empty; also returns the constructor's final state. -/
def Pool.new {T σ : Type} (size : Nat) (c : σ → T × σ) (s : σ) :
    PoolInner T × σ :=
  let seeded := mkObjects c size s
  ({ objects := seeded.1, pending := [] }, seeded.2)

/-- `Pool::try_take`: a single non-blocking lock attempt; on success pop
the top of the stack, never touching `pending`. -/
def Pool.tryTake {T : Type} (locked : Bool) (st : PoolInner T) :
    Option (PoolGuard T) × PoolInner T :=
  if locked then
    match st.objects.getLast? with
    | some x => (some ⟨x⟩, { st with objects := st.objects.dropLast })
    | none => (none, st)
  else
    (none, st)

/-- `Pool::take_or`: `try_take`, falling back to a guard built directly
around the supplied value. -/
def Pool.takeOr {T : Type} (locked : Bool) (value : T) (st : PoolInner T) :
    PoolGuard T × PoolInner T :=
  match Pool.tryTake locked st with
  | (some g, st') => (g, st')
  | (none, st') => (⟨value⟩, st')

/-- `Pool::take_or_default`: `take_or` with `Default::default()`. -/
def Pool.takeOrDefault {T : Type} [Inhabited T] (locked : Bool)
    (st : PoolInner T) : PoolGuard T × PoolInner T :=
  Pool.takeOr locked default st

/-! ### Characterization lemmas -/

theorem poll_locked_nonempty {T : Type} (st : PoolInner T) (w : Nat)
    (h : st.objects ≠ []) :
    PoolFuture.poll true w st =
      (PollRes.Ready ⟨st.objects.getLast h⟩,
       { objects := st.objects.dropLast, pending := st.pending }) := by
  rcases st with ⟨objs, pend⟩
  rcases objs.eq_nil_or_concat' with rfl | ⟨L, b, rfl⟩
  · exact absurd rfl h
  · simp [PoolFuture.poll, List.getLast?_concat, List.dropLast_concat]

theorem tryTake_locked_nonempty {T : Type} (st : PoolInner T)
    (h : st.objects ≠ []) :
    Pool.tryTake true st =
      (some ⟨st.objects.getLast h⟩,
       { objects := st.objects.dropLast, pending := st.pending }) := by
  rcases st with ⟨objs, pend⟩
  rcases objs.eq_nil_or_concat' with rfl | ⟨L, b, rfl⟩
  · exact absurd rfl h
  · simp [Pool.tryTake, List.getLast?_concat, List.dropLast_concat]

theorem tryTake_fail {T : Type} (locked : Bool) (st : PoolInner T) :
    (Pool.tryTake locked st).1 = none ↔ locked = false ∨ st.objects = [] := by
  rcases st with ⟨objs, pend⟩
  cases locked
  · simp [Pool.tryTake]
  · rcases objs.eq_nil_or_concat' with rfl | ⟨L, b, rfl⟩
    · simp [Pool.tryTake]
    · simp [Pool.tryTake, List.getLast?_concat]

/-! ### Claim theorems -/

/-- C1: a poll of a suspending acquisition that acquires the lock with
`objects` non-empty removes exactly one instance in stack order (the last
element of the vector, i.e. the most recently returned one is served
first), wraps it in a new guard, completes ready, and leaves `pending`
unchanged. -/
theorem take_poll_ready_pops_stack {T : Type} (st : PoolInner T) (w : Nat)
    (h : st.objects ≠ []) :
    PoolFuture.poll true w st =
      (PollRes.Ready ⟨st.objects.getLast h⟩,
       { objects := st.objects.dropLast, pending := st.pending }) ∧
    st.objects.dropLast ++ [st.objects.getLast h] = st.objects ∧
    ∀ (y : T) (st₂ : PoolInner T) (w₂ : Nat),
      (PoolFuture.poll true w₂ (PoolGuard.dropWork y st₂).1).1 =
        PollRes.Ready ⟨y⟩ := by
  refine ⟨poll_locked_nonempty st w h, List.dropLast_append_getLast h, ?_⟩
  intro y st₂ w₂
  have hne : (PoolGuard.dropWork y st₂).1.objects ≠ [] := by
    simp [PoolGuard.dropWork]
  rw [poll_locked_nonempty _ w₂ hne]
  simp [PoolGuard.dropWork, List.getLast_append]

/-- C1 witness: evaluated at a concrete pool. -/
theorem take_poll_ready_pops_stack_w :
    ([5, 7] : List Nat) ≠ [] ∧
    PoolFuture.poll true 0 (⟨[5, 7], [3]⟩ : PoolInner Nat) =
      (PollRes.Ready ⟨7⟩, ⟨[5], [3]⟩) := by
  refine ⟨by decide, ?_⟩
  have h := take_poll_ready_pops_stack (⟨[5, 7], [3]⟩ : PoolInner Nat) 0
    (by decide)
  simpa using h.1

/-- C2: a poll whose lock attempt fails reports pending with the pool state
unchanged (no waiter registered); a poll that acquires the lock with
`objects` empty appends the caller's waker at the back of `pending`,
leaves `objects` unchanged, and reports pending. -/
theorem take_poll_pending_paths {T : Type} (st : PoolInner T) (w : Nat) :
    PoolFuture.poll false w st = (PollRes.Pending, st) ∧
    (st.objects = [] →
      PoolFuture.poll true w st =
        (PollRes.Pending,
         { objects := st.objects, pending := st.pending ++ [w] })) := by
  constructor
  · simp [PoolFuture.poll]
  · intro h
    rcases st with ⟨objs, pend⟩
    simp only at h
    subst h
    simp [PoolFuture.poll]

/-- C2 witness: both pending paths evaluated at concrete pools. -/
theorem take_poll_pending_paths_w :
    PoolFuture.poll false 0 (⟨[1], [2]⟩ : PoolInner Nat) =
      (PollRes.Pending, ⟨[1], [2]⟩) ∧
    PoolFuture.poll true 4 (⟨[], [2]⟩ : PoolInner Nat) =
      (PollRes.Pending, ⟨[], [2, 4]⟩) := by
  refine ⟨(take_poll_pending_paths (⟨[1], [2]⟩ : PoolInner Nat) 0).1, ?_⟩
  have h := (take_poll_pending_paths (⟨[], [2]⟩ : PoolInner Nat) 4).2 rfl
  simpa using h

/-- C3: the deferred work scheduled by a guard's drop pushes the guard's
instance onto the back of `objects` and removes and invokes exactly the
oldest pending waker — `head?` of the FIFO queue, which is `none` exactly
when `pending` is empty — leaving the rest (`tail`) queued. -/
theorem guard_drop_returns_and_wakes_fifo {T : Type} (c : T)
    (st : PoolInner T) :
    (PoolGuard.dropWork c st).1.objects = st.objects ++ [c] ∧
    (PoolGuard.dropWork c st).2 = st.pending.head? ∧
    (PoolGuard.dropWork c st).1.pending = st.pending.tail := by
  simp [PoolGuard.dropWork]

/-- C5: `try_take` attempts the lock once without registering a waiter
(`pending` is never modified), returns `none` exactly when the lock is
contended or `objects` is empty, and otherwise pops one instance in stack
order into a guard. -/
theorem tryTake_once_no_waiter {T : Type} (locked : Bool)
    (st : PoolInner T) :
    ((Pool.tryTake locked st).1 = none ↔ locked = false ∨ st.objects = []) ∧
    (Pool.tryTake locked st).2.pending = st.pending ∧
    ∀ h : st.objects ≠ [],
      Pool.tryTake true st =
        (some ⟨st.objects.getLast h⟩,
         { objects := st.objects.dropLast, pending := st.pending }) := by
  refine ⟨tryTake_fail locked st, ?_, fun h => tryTake_locked_nonempty st h⟩
  rcases st with ⟨objs, pend⟩
  cases locked
  · simp [Pool.tryTake]
  · rcases objs.eq_nil_or_concat' with rfl | ⟨L, b, rfl⟩
    · simp [Pool.tryTake]
    · simp [Pool.tryTake, List.getLast?_concat]

/-- C5 witness: both the empty-uncontended failure and a concrete success. -/
theorem tryTake_once_no_waiter_w :
    ((Pool.tryTake true (⟨[], [9]⟩ : PoolInner Nat)).1 = none ↔
      true = false ∨ ([] : List Nat) = []) ∧
    Pool.tryTake true (⟨[1, 2], []⟩ : PoolInner Nat) = (some ⟨2⟩, ⟨[1], []⟩) := by
  refine ⟨(tryTake_once_no_waiter true (⟨[], [9]⟩ : PoolInner Nat)).1, ?_⟩
  have h := (tryTake_once_no_waiter true (⟨[1, 2], []⟩ : PoolInner Nat)).2.2
    (by decide)
  simpa using h

theorem tryTake_none_state {T : Type} (locked : Bool) (st : PoolInner T)
    (h : (Pool.tryTake locked st).1 = none) :
    Pool.tryTake locked st = (none, st) := by
  rcases st with ⟨objs, pend⟩
  cases locked
  · simp [Pool.tryTake]
  · rcases objs.eq_nil_or_concat' with rfl | ⟨L, b, rfl⟩
    · simp [Pool.tryTake]
    · simp [Pool.tryTake, List.getLast?_concat] at h

theorem mkObjects_length {T σ : Type} (c : σ → T × σ) :
    ∀ (size : Nat) (s : σ), (mkObjects c size s).1.length = size := by
  intro size
  induction size with
  | zero => intro s; rfl
  | succ n ih => intro s; simp [mkObjects, ih]

theorem mkObjects_state {T σ : Type} (c : σ → T × σ) :
    ∀ (size : Nat) (s : σ),
      (mkObjects c size s).2 = (fun t => (c t).2)^[size] s := by
  intro size
  induction size with
  | zero => intro s; rfl
  | succ n ih =>
    intro s
    rw [Function.iterate_succ_apply]
    exact ih ((c s).2)

theorem mkObjects_count {T : Type} (f : Nat → T) :
    ∀ (size k : Nat),
      (mkObjects (fun n => (f n, n + 1)) size k).1 =
        (List.range' k size).map f := by
  intro size
  induction size with
  | zero => intro k; rfl
  | succ n ih => intro k; simp [mkObjects, List.range'_succ, ih]

/-- C6: when the underlying `try_take` fails, `take_or` returns a guard
built directly around the caller-supplied value (`take_or_default` around
the default value) with the pool state untouched, without suspending; when
that fallback guard is released its instance is pushed into `objects`, so
the available capacity is one greater than before. -/
theorem takeOr_fallback_grows_pool {T : Type} [Inhabited T] (locked : Bool)
    (v : T) (st : PoolInner T) (h : (Pool.tryTake locked st).1 = none) :
    Pool.takeOr locked v st = (⟨v⟩, st) ∧
    Pool.takeOrDefault locked st = (⟨(default : T)⟩, st) ∧
    (PoolGuard.dropWork v st).1.objects.length = st.objects.length + 1 ∧
    v ∈ (PoolGuard.dropWork v st).1.objects := by
  have hs := tryTake_none_state locked st h
  refine ⟨?_, ?_, ?_, ?_⟩
  · simp [Pool.takeOr, hs]
  · simp [Pool.takeOrDefault, Pool.takeOr, hs]
  · simp [PoolGuard.dropWork]
  · simp [PoolGuard.dropWork]

/-- C6 witness: fallback against an empty, uncontended pool, then release. -/
theorem takeOr_fallback_grows_pool_w :
    Pool.takeOr true 42 (⟨[], []⟩ : PoolInner Nat) = (⟨42⟩, ⟨[], []⟩) ∧
    Pool.takeOrDefault true (⟨[], []⟩ : PoolInner Nat) = (⟨0⟩, ⟨[], []⟩) ∧
    (PoolGuard.dropWork 42 (⟨[], []⟩ : PoolInner Nat)).1.objects.length =
      0 + 1 ∧
    42 ∈ (PoolGuard.dropWork 42 (⟨[], []⟩ : PoolInner Nat)).1.objects := by
  have h := takeOr_fallback_grows_pool true 42 (⟨[], []⟩ : PoolInner Nat)
    (by decide)
  simpa using h

/-- C8: round trip — from any state with an available instance, a
successful acquisition immediately followed by its guard's release (the
deferred work having run, nothing interleaved) puts the identical instance
back, restoring `objects` exactly, so the available count after the
release equals the count before the acquisition. -/
theorem acquire_release_round_trip {T : Type} (st : PoolInner T) (w : Nat)
    (h : st.objects ≠ []) :
    ∃ (g : PoolGuard T) (st' : PoolInner T),
      PoolFuture.poll true w st = (PollRes.Ready g, st') ∧
      (PoolGuard.dropWork g.content st').1.objects = st.objects ∧
      (PoolGuard.dropWork g.content st').1.objects.length =
        st.objects.length := by
  refine ⟨⟨st.objects.getLast h⟩, _, poll_locked_nonempty st w h, ?_, ?_⟩
  · simpa [PoolGuard.dropWork] using List.dropLast_append_getLast h
  · simp only [PoolGuard.dropWork, List.length_append, List.length_dropLast,
      List.length_singleton]
    have := List.length_pos.mpr h
    omega

/-- C8 witness: round trip on a concrete pool. -/
theorem acquire_release_round_trip_w :
    ∃ (g : PoolGuard Nat) (st' : PoolInner Nat),
      PoolFuture.poll true 0 (⟨[8, 9], []⟩ : PoolInner Nat) =
        (PollRes.Ready g, st') ∧
      (PoolGuard.dropWork g.content st').1.objects = [8, 9] ∧
      (PoolGuard.dropWork g.content st').1.objects.length =
        ([8, 9] : List Nat).length :=
  acquire_release_round_trip (⟨[8, 9], []⟩ : PoolInner Nat) 0 (by decide)

/-- C9: `Pool::new(size, constructor)` invokes the state-threaded
constructor exactly `size` times (the final constructor state is the
`size`-fold iterate), seeds `objects` with exactly those `size` results in
call order, and starts with `pending` empty; `size = 0` is covered since
the statement holds for every `size`. -/
theorem new_seeds_pool {T σ : Type} (size : Nat) (c : σ → T × σ) (s : σ) :
    (Pool.new size c s).1.objects = (mkObjects c size s).1 ∧
    (Pool.new size c s).1.objects.length = size ∧
    (Pool.new size c s).1.pending = [] ∧
    (Pool.new size c s).2 = (fun t => (c t).2)^[size] s ∧
    ∀ (f : Nat → T),
      (Pool.new size (fun n => (f n, n + 1)) 0).1.objects =
        (List.range size).map f := by
  refine ⟨rfl, mkObjects_length c size s, rfl, mkObjects_state c size s, ?_⟩
  intro f
  show (mkObjects (fun n => (f n, n + 1)) size 0).1 = _
  rw [mkObjects_count f size 0, List.range_eq_range']

/-- C10: when the underlying `try_take` succeeds (lock held, `objects`
non-empty), `take_or` returns the pooled instance and the caller-supplied
fallback value is discarded: the resulting `objects` is a sublist of the
old one (nothing was pushed) and exactly one instance was removed, so
total capacity is unchanged. -/
theorem takeOr_success_discards_fallback {T : Type} (v : T)
    (st : PoolInner T) (h : st.objects ≠ []) :
    Pool.takeOr true v st =
      (⟨st.objects.getLast h⟩,
       { objects := st.objects.dropLast, pending := st.pending }) ∧
    (Pool.takeOr true v st).2.objects.Sublist st.objects ∧
    (Pool.takeOr true v st).2.objects.length + 1 = st.objects.length := by
  have ht := tryTake_locked_nonempty st h
  refine ⟨by simp [Pool.takeOr, ht], ?_, ?_⟩
  · simp only [Pool.takeOr, ht]
    exact List.dropLast_sublist st.objects
  · simp only [Pool.takeOr, ht]
    simpa [List.length_dropLast] using
      Nat.succ_pred_eq_of_pos (List.length_pos.mpr h)

/-- C10 witness: `take_or` on a non-empty pool discards the fallback. -/
theorem takeOr_success_discards_fallback_w :
    Pool.takeOr true 99 (⟨[4, 6], [1]⟩ : PoolInner Nat) =
      (⟨6⟩, ⟨[4], [1]⟩) ∧
    (Pool.takeOr true 99 (⟨[4, 6], [1]⟩ : PoolInner Nat)).2.objects.Sublist
      [4, 6] ∧
    (Pool.takeOr true 99
        (⟨[4, 6], [1]⟩ : PoolInner Nat)).2.objects.length + 1 = 2 := by
  have h := takeOr_success_discards_fallback 99
    (⟨[4, 6], [1]⟩ : PoolInner Nat) (by decide)
  simpa using h

/-! ### Iterated non-suspending acquisition (for the exhaustion property) -/

/-- `n` consecutive `try_take` calls with the lock always available,
collecting the results in order. -/
def tryTakeN {T : Type} : Nat → PoolInner T →
    List (Option (PoolGuard T)) × PoolInner T
  | 0, st => ([], st)
  | n + 1, st =>
    let r := Pool.tryTake true st
    let rest := tryTakeN n r.2
    (r.1 :: rest.1, rest.2)

theorem tryTakeN_results_length {T : Type} :
    ∀ (n : Nat) (st : PoolInner T), (tryTakeN n st).1.length = n := by
  intro n
  induction n with
  | zero => intro st; rfl
  | succ n ih => intro st; simp [tryTakeN, ih]

theorem tryTakeN_drains {T : Type} :
    ∀ (n : Nat) (st : PoolInner T), st.objects.length = n →
      (∀ r ∈ (tryTakeN n st).1, r.isSome = true) ∧
      (tryTakeN n st).2.objects = [] := by
  intro n
  induction n with
  | zero =>
    intro st hlen
    refine ⟨?_, List.length_eq_zero.mp hlen⟩
    intro r hr
    simp [tryTakeN] at hr
  | succ n ih =>
    intro st hlen
    have hne : st.objects ≠ [] := by
      intro hnil
      rw [hnil] at hlen
      simp at hlen
    have ht := tryTake_locked_nonempty st hne
    have hlen' : ((⟨st.objects.dropLast, st.pending⟩ :
        PoolInner T)).objects.length = n := by
      simp only [List.length_dropLast, hlen]
      omega
    obtain ⟨ihA, ihB⟩ := ih _ hlen'
    constructor
    · intro r hr
      simp only [tryTakeN, ht] at hr
      rcases List.mem_cons.mp hr with rfl | hr'
      · rfl
      · exact ihA r hr'
    · simp only [tryTakeN, ht]
      exact ihB

/-- C7: immediately after constructing a pool with `size` instances, with
the lock always uncontended, the `size` consecutive `try_take` calls all
succeed (every collected result is `some` guard) and the next one — the
`(size+1)`-th, before any release — fails. -/
theorem fresh_pool_serves_exactly_size {T σ : Type} (size : Nat)
    (c : σ → T × σ) (s : σ) :
    (tryTakeN size (Pool.new size c s).1).1.length = size ∧
    (tryTakeN size (Pool.new size c s).1).1.all
      (fun r => r.isSome) = true ∧
    (Pool.tryTake true (tryTakeN size (Pool.new size c s).1).2).1 =
      none := by
  have hlen : (Pool.new size c s).1.objects.length = size :=
    mkObjects_length c size s
  obtain ⟨hA, hB⟩ := tryTakeN_drains size _ hlen
  refine ⟨tryTakeN_results_length size _, ?_, ?_⟩
  · exact List.all_eq_true.mpr hA
  · exact (tryTake_fail true _).mpr (Or.inr hB)

/-! ### Whole-system accounting (instances in pool + outstanding guards) -/

/-- System state for the accounting invariant: the pool, the contents of
outstanding (unreleased) guards, and the running total of instances ever
constructed at pool construction or borrowed in via fallback. -/
structure SysState (T : Type) where
  pool : PoolInner T
  guards : List T
  total : Nat
deriving Repr, DecidableEq

/-- One operation of the pool's public surface.  Each operation that makes
a non-blocking lock attempt carries that attempt's outcome; `release i`
drops the `i`-th outstanding guard (a no-op if there is none). -/
inductive Op (T : Type) where
  | poll (locked : Bool) (waker : Nat)
  | tryTake (locked : Bool)
  | takeOr (locked : Bool) (value : T)
  | takeOrDefault (locked : Bool)
  | release (i : Nat)
deriving Repr, DecidableEq

/-- Apply one operation to the system state, tracking outstanding guards
and counting fallback borrows into `total`. -/
def stepOp {T : Type} [Inhabited T] (st : SysState T) : Op T → SysState T
  | Op.poll locked w =>
    match PoolFuture.poll locked w st.pool with
    | (PollRes.Ready g, p) => ⟨p, g.content :: st.guards, st.total⟩
    | (PollRes.Pending, p) => ⟨p, st.guards, st.total⟩
  | Op.tryTake locked =>
    match Pool.tryTake locked st.pool with
    | (some g, p) => ⟨p, g.content :: st.guards, st.total⟩
    | (none, p) => ⟨p, st.guards, st.total⟩
  | Op.takeOr locked v =>
    match Pool.tryTake locked st.pool with
    | (some g, p) => ⟨p, g.content :: st.guards, st.total⟩
    | (none, p) => ⟨p, v :: st.guards, st.total + 1⟩
  | Op.takeOrDefault locked =>
    match Pool.tryTake locked st.pool with
    | (some g, p) => ⟨p, g.content :: st.guards, st.total⟩
    | (none, p) => ⟨p, (default : T) :: st.guards, st.total + 1⟩
  | Op.release i =>
    match st.guards[i]? with
    | some c =>
      ⟨(PoolGuard.dropWork c st.pool).1, st.guards.eraseIdx i, st.total⟩
    | none => st

/-- Run a sequence of operations. -/
def runOps {T : Type} [Inhabited T] : SysState T → List (Op T) → SysState T
  | st, [] => st
  | st, op :: ops => runOps (stepOp st op) ops

/-- System state immediately after `Pool::new`. -/
def SysState.init {T σ : Type} (size : Nat) (c : σ → T × σ) (s : σ) :
    SysState T :=
  ⟨(Pool.new size c s).1, [], size⟩

/-- The accounting invariant. -/
def SysInv {T : Type} (st : SysState T) : Prop :=
  st.pool.objects.length + st.guards.length = st.total

theorem poll_case {T : Type} (locked : Bool) (w : Nat) (st : PoolInner T) :
    (PoolFuture.poll locked w st =
        (PollRes.Pending, st) ∧ (PoolFuture.poll locked w st).2.objects = st.objects) ∨
    (∃ g, PoolFuture.poll locked w st =
        (PollRes.Ready g, ⟨st.objects.dropLast, st.pending⟩) ∧
      st.objects ≠ []) ∨
    (PoolFuture.poll locked w st =
        (PollRes.Pending, ⟨st.objects, st.pending ++ [w]⟩) ∧
      (PoolFuture.poll locked w st).2.objects = st.objects) := by
  rcases st with ⟨objs, pend⟩
  cases locked
  · left
    exact ⟨by simp [PoolFuture.poll], by simp [PoolFuture.poll]⟩
  · rcases objs.eq_nil_or_concat' with rfl | ⟨L, b, rfl⟩
    · right; right
      constructor
      · simp [PoolFuture.poll]
      · simp [PoolFuture.poll]
    · right; left
      refine ⟨⟨b⟩, ?_, by simp⟩
      simp [PoolFuture.poll, List.getLast?_concat, List.dropLast_concat]

theorem tryTake_case {T : Type} (locked : Bool) (st : PoolInner T) :
    (Pool.tryTake locked st = (none, st)) ∨
    (∃ g, Pool.tryTake locked st =
        (some g, ⟨st.objects.dropLast, st.pending⟩) ∧ st.objects ≠ []) := by
  rcases st with ⟨objs, pend⟩
  cases locked
  · left; simp [Pool.tryTake]
  · rcases objs.eq_nil_or_concat' with rfl | ⟨L, b, rfl⟩
    · left; simp [Pool.tryTake]
    · right
      refine ⟨⟨b⟩, ?_, by simp⟩
      simp [Pool.tryTake, List.getLast?_concat, List.dropLast_concat]

theorem stepOp_inv {T : Type} [Inhabited T] (st : SysState T) (op : Op T)
    (h : SysInv st) :
    SysInv (stepOp st op) ∧ st.total ≤ (stepOp st op).total := by
  rcases st with ⟨pool, gs, tot⟩
  simp only [SysInv] at h ⊢
  cases op with
  | poll locked w =>
    rcases poll_case locked w pool with ⟨hp, _⟩ | ⟨g, hp, hne⟩ | ⟨hp, _⟩
    · simp only [stepOp, hp]
      exact ⟨h, Nat.le_refl _⟩
    · simp only [stepOp, hp]
      have := List.length_pos.mpr hne
      simp only [List.length_cons, List.length_dropLast]
      omega
    · simp only [stepOp, hp]
      exact ⟨h, Nat.le_refl _⟩
  | tryTake locked =>
    rcases tryTake_case locked pool with hp | ⟨g, hp, hne⟩
    · simp only [stepOp, hp]
      exact ⟨h, Nat.le_refl _⟩
    · simp only [stepOp, hp]
      have := List.length_pos.mpr hne
      simp only [List.length_cons, List.length_dropLast]
      omega
  | takeOr locked v =>
    rcases tryTake_case locked pool with hp | ⟨g, hp, hne⟩
    · simp only [stepOp, hp]
      simp only [List.length_cons]
      omega
    · simp only [stepOp, hp]
      have := List.length_pos.mpr hne
      simp only [List.length_cons, List.length_dropLast]
      omega
  | takeOrDefault locked =>
    rcases tryTake_case locked pool with hp | ⟨g, hp, hne⟩
    · simp only [stepOp, hp]
      simp only [List.length_cons]
      omega
    · simp only [stepOp, hp]
      have := List.length_pos.mpr hne
      simp only [List.length_cons, List.length_dropLast]
      omega
  | release i =>
    rcases hgi : gs[i]? with _ | c
    · simp only [stepOp, hgi]
      exact ⟨h, Nat.le_refl _⟩
    · have hi : i < gs.length := by
        have := List.getElem?_eq_some.mp hgi
        exact this.1
      simp only [stepOp, hgi, PoolGuard.dropWork]
      have herase := List.length_eraseIdx_of_lt hi
      simp only [List.length_append, List.length_singleton, herase]
      omega

theorem stepOp_total_mono {T : Type} [Inhabited T] (st : SysState T)
    (op : Op T) : st.total ≤ (stepOp st op).total := by
  rcases st with ⟨pool, gs, tot⟩
  cases op with
  | poll locked w =>
    rcases poll_case locked w pool with ⟨hp, _⟩ | ⟨g, hp, hne⟩ | ⟨hp, _⟩ <;>
      simp only [stepOp, hp] <;> exact Nat.le_refl _
  | tryTake locked =>
    rcases tryTake_case locked pool with hp | ⟨g, hp, hne⟩ <;>
      simp only [stepOp, hp] <;> exact Nat.le_refl _
  | takeOr locked v =>
    rcases tryTake_case locked pool with hp | ⟨g, hp, hne⟩ <;>
      simp only [stepOp, hp]
    · exact Nat.le_succ _
    · exact Nat.le_refl _
  | takeOrDefault locked =>
    rcases tryTake_case locked pool with hp | ⟨g, hp, hne⟩ <;>
      simp only [stepOp, hp]
    · exact Nat.le_succ _
    · exact Nat.le_refl _
  | release i =>
    rcases hgi : gs[i]? with _ | c <;> simp only [stepOp, hgi] <;>
      exact Nat.le_refl _

theorem runOps_inv {T : Type} [Inhabited T] :
    ∀ (ops : List (Op T)) (st : SysState T), SysInv st →
      SysInv (runOps st ops) ∧ st.total ≤ (runOps st ops).total := by
  intro ops
  induction ops with
  | nil => intro st h; exact ⟨h, Nat.le_refl _⟩
  | cons op ops ih =>
    intro st h
    obtain ⟨h1, h2⟩ := stepOp_inv st op h
    obtain ⟨h3, h4⟩ := ih (stepOp st op) h1
    exact ⟨h3, Nat.le_trans h2 h4⟩

/-- C4: after any sequence of operations starting from a freshly
constructed pool, the number of free instances in `objects` plus the
number of outstanding guards equals the running total of instances ever
constructed or borrowed in via fallback; this total never decreases at
any step, and in particular never drops below the configured size. -/
theorem pool_accounting_invariant {T σ : Type} [Inhabited T] (size : Nat)
    (c : σ → T × σ) (s : σ) (ops : List (Op T)) :
    (runOps (SysState.init size c s) ops).pool.objects.length +
        (runOps (SysState.init size c s) ops).guards.length =
      (runOps (SysState.init size c s) ops).total ∧
    size ≤ (runOps (SysState.init size c s) ops).total ∧
    ∀ (st : SysState T) (op : Op T), st.total ≤ (stepOp st op).total := by
  have hinit : SysInv (SysState.init size c s : SysState T) := by
    simp [SysInv, SysState.init, mkObjects_length c size s, Pool.new]
  obtain ⟨h1, h2⟩ := runOps_inv ops _ hinit
  exact ⟨h1, h2, fun st op => stepOp_total_mono st op⟩
